import Mathlib

/-!
Verification of the concurrency core of the `utils` repository against its
natural-language specification.

The development shallowly embeds the relevant C++ classes as Lean functions
over explicit state:

* `ChunkList` (src/include/utils/chunk_list.h): the segmented store.  A chunk
  is modelled as its allocation identity plus the list of stored values; the
  std::list of chunks is a Lean list.  Allocation identities model the fact
  that a std::list node (and the std::array inside it) is heap storage that
  never moves; a fresh identity is drawn from a counter at every
  `emplace_back`.
* `Stream` (src/stream.h): the growable array stream, with the allocation
  identity of its backing `new Data[]` array made explicit so that the
  relocation done by `Stream::extend` is observable.
* `bar_t` (src/include/utils/thread.h): the order of the operations executed
  by the last thread arriving at `bar_t::wait`, as an event list.
* `thread_pool_t` / `TaskQueue` (src/include/utils/thread.h): explicit state
  passing; C++ exceptions become an `Option Err` component of the result,
  with the state returned alongside (a thrown exception leaves the object in
  the state it had at the throw point).
-/

namespace UtilsSpec

/-- Error signals raised by the embedded operations.  `outOfRange` models
`std::out_of_range`, `underflow`/`overflow` the two `std::length_error`
signals of `ChunkList`, and `permissionDenied`/`invalidArgument` the
`PermissionException`/`InvalidArgumentException` of utils/exception.h. -/
inductive Err where
  | outOfRange
  | underflow
  | overflow
  | permissionDenied
  | invalidArgument
deriving DecidableEq, Repr

/-! ## ChunkList (src/include/utils/chunk_list.h) -/

/-- One chunk: `id` is the allocation identity of the chunk's storage
(std::list node), `vals` the first `size_` elements of its `std::array`. -/
structure Chunk (α : Type) where
  id : Nat
  vals : List α
deriving DecidableEq, Repr

/-- `ChunkList::Chunk::push_back` (chunk_list.h:141-146): store at `size_`
and increment it when `size_ < storage_.size()`, otherwise throw
`std::length_error` (chunk overflows). -/
def Chunk.push_back {α : Type} (cap : Nat) (c : Chunk α) (v : α) : Except Err (Chunk α) :=
  if c.vals.length < cap then .ok ⟨c.id, c.vals ++ [v]⟩ else .error .overflow

/-- `ChunkList::Chunk::pop_back` (chunk_list.h:155-159): throw
`std::length_error` (chunk underflows) when empty, else decrement `size_`. -/
def Chunk.pop_back {α : Type} (c : Chunk α) : Except Err (Chunk α) :=
  if c.vals.length = 0 then .error .underflow else .ok ⟨c.id, c.vals.dropLast⟩

/-- `ChunkList::Chunk::resize(size, value)` (chunk_list.h:170-177): throw on
`size > storage_.size()`, otherwise fill slots `size_ .. size-1` with `value`
and set `size_ = size` (truncating when `size < size_`). -/
def Chunk.resizeFill {α : Type} (cap : Nat) (c : Chunk α) (n : Nat) (fill : α) :
    Except Err (Chunk α) :=
  if cap < n then .error .overflow
  else .ok ⟨c.id, c.vals.take n ++ List.replicate (n - c.vals.length) fill⟩

/-- The chunk list: `cap` is `CHUNK_CAPACITY` (static_asserted positive in the
source), `list` the `std::list<Chunk>`, `size` the element count `size_`, and
`nextId` the allocation-identity counter for freshly emplaced chunks. -/
structure ChunkList (α : Type) where
  cap : Nat
  list : List (Chunk α)
  size : Nat
  nextId : Nat
deriving DecidableEq, Repr

/-- Elements of a chunk-list storage in order. -/
def listElems {α : Type} (l : List (Chunk α)) : List α :=
  (l.map Chunk.vals).flatten

/-- Storage addresses of the elements in order: the i-th entry is the pair
(allocation identity of the chunk holding element i, offset inside it). -/
def listAddrs {α : Type} (l : List (Chunk α)) : List (Nat × Nat) :=
  (l.map (fun c => (List.range c.vals.length).map (fun j => (c.id, j)))).flatten

/-- The stored elements of the chunk list, in order. -/
def ChunkList.elems {α : Type} (s : ChunkList α) : List α := listElems s.list

/-- The storage addresses of the stored elements, in order. -/
def ChunkList.addrs {α : Type} (s : ChunkList α) : List (Nat × Nat) := listAddrs s.list

/-- `ChunkList()` (chunk_list.h:201-205): empty list, zero size. -/
def ChunkList.empty (α : Type) (cap : Nat) : ChunkList α := ⟨cap, [], 0, 0⟩

/-- `ChunkList::push_back` (chunk_list.h:323-334): emplace a chunk when the
list is empty; push into the last chunk; on chunk overflow emplace a new
chunk and push into it; finally increment `size_`. -/
def ChunkList.push_back {α : Type} (s : ChunkList α) (v : α) : Except Err (ChunkList α) :=
  let start : List (Chunk α) × Nat :=
    if s.list.isEmpty then (s.list ++ [⟨s.nextId, []⟩], s.nextId + 1) else (s.list, s.nextId)
  match start.1.getLast? with
  | none => .error .underflow
  | some c =>
    match Chunk.push_back s.cap c v with
    | .ok c' =>
        .ok { s with list := start.1.dropLast ++ [c'], nextId := start.2, size := s.size + 1 }
    | .error _ =>
        match Chunk.push_back s.cap (⟨start.2, []⟩ : Chunk α) v with
        | .ok c' =>
            .ok { s with list := start.1 ++ [c'], nextId := start.2 + 1, size := s.size + 1 }
        | .error e => .error e

/-- `ChunkList::pop_back` (chunk_list.h:355-365): throw `std::length_error`
(chunk underflows) when `size_ == 0`; pop the last chunk's last element,
decrement `size_`, and unlink the last chunk if it became empty.  (The
`getLast? = none` branch models the undefined `back()` on an empty list,
unreachable when `size_` is consistent with the list.) -/
def ChunkList.pop_back {α : Type} (s : ChunkList α) : Except Err (ChunkList α) :=
  if s.size = 0 then .error .underflow
  else
    match s.list.getLast? with
    | none => .error .underflow
    | some c =>
      match Chunk.pop_back c with
      | .error e => .error e
      | .ok c' =>
        let l := if c'.vals.isEmpty then s.list.dropLast else s.list.dropLast ++ [c']
        .ok { s with list := l, size := s.size - 1 }

/-- `ChunkList::clear` (chunk_list.h:370-373). -/
def ChunkList.clear {α : Type} (s : ChunkList α) : ChunkList α :=
  { s with list := [], size := 0 }

/-- `list_.empty() || list_.back().size() == CHUNK_CAPACITY`
(chunk_list.h:392). -/
def lastFullOrEmpty {α : Type} (cap : Nat) (l : List (Chunk α)) : Bool :=
  match l.getLast? with
  | none => true
  | some c => c.vals.length == cap

/-- The grow loop of `ChunkList::resize` (chunk_list.h:390-397).  `fuel`
bounds the iteration count; each iteration adds `incr ≥ 1` elements when
`cap > 0`, so `fuel = diff` iterations always suffice (with `cap = 0` the
C++ loop would not terminate, a case excluded by the static_assert). -/
def growLoop {α : Type} (cap : Nat) (fill : α) :
    List (Chunk α) → Nat → Nat → Nat → Except Err (List (Chunk α) × Nat)
  | l, nid, _, 0 => .ok (l, nid)
  | l, nid, diff, fuel + 1 =>
    if diff = 0 then .ok (l, nid)
    else
      let step : List (Chunk α) × Nat :=
        if lastFullOrEmpty cap l then (l ++ [⟨nid, []⟩], nid + 1) else (l, nid)
      match step.1.getLast? with
      | none => .ok (step.1, step.2)
      | some c =>
        let occup := c.vals.length
        let incr := min diff (cap - occup)
        match Chunk.resizeFill cap c (occup + incr) fill with
        | .error e => .error e
        | .ok c' => growLoop cap fill (step.1.dropLast ++ [c']) step.2 (diff - incr) fuel

/-- The shrink loop of `ChunkList::resize` (chunk_list.h:399-411): while
elements remain to drop, pop the whole last chunk when it is not larger than
the deficit, else truncate it (`Chunk::resize(occup - diff)` keeps the first
`occup - diff` elements).  `fuel` bounds the iterations; `l.length + 1`
always suffices.  The `getLast? = none` branch models the asserted-against
empty list, unreachable when `diff` is at most the element count. -/
def shrinkLoop {α : Type} : List (Chunk α) → Nat → Nat → List (Chunk α)
  | l, _, 0 => l
  | l, diff, fuel + 1 =>
    if diff = 0 then l
    else
      match l.getLast? with
      | none => l
      | some c =>
        let occup := c.vals.length
        if occup ≤ diff then shrinkLoop l.dropLast (diff - occup) fuel
        else l.dropLast ++ [⟨c.id, c.vals.take (occup - diff)⟩]

/-- `ChunkList::resize` (chunk_list.h:386-415): grow by chunk-filling when
the target exceeds `size_`, otherwise shrink; finally set `size_`. -/
def ChunkList.resize {α : Type} (s : ChunkList α) (n : Nat) (fill : α) :
    Except Err (ChunkList α) :=
  if s.size < n then
    match growLoop s.cap fill s.list s.nextId (n - s.size) (n - s.size) with
    | .error e => .error e
    | .ok ln => .ok { s with list := ln.1, nextId := ln.2, size := n }
  else
    .ok { s with list := shrinkLoop s.list (s.size - n) (s.list.length + 1), size := n }

/-- `ChunkList::at` (chunk_list.h:245-265): throw `std::out_of_range` when
`pos >= size_`; otherwise resolve `chunkIndex = pos / CHUNK_CAPACITY` and
`chunkOffset = pos % CHUNK_CAPACITY`, walk the list to that chunk and read
slot `chunkOffset`.  Walking past the list end or reading past the stored
prefix (both asserted against / undefined in the source) yield `none`. -/
def ChunkList.atIdx {α : Type} (s : ChunkList α) (pos : Nat) : Except Err (Option α) :=
  if s.size ≤ pos then .error .outOfRange
  else
    let chunkIndex := pos / s.cap
    let chunkOffset := pos % s.cap
    match s.list[chunkIndex]? with
    | none => .ok none
    | some c => .ok c.vals[chunkOffset]?

/-- The mutating interface of the store. -/
inductive Op (α : Type) where
  | push : α → Op α
  | pop : Op α
  | resize : Nat → α → Op α
  | clear : Op α
deriving DecidableEq, Repr

/-- Apply one operation; a raised signal leaves the store unchanged (each
throwing operation throws before any mutation). -/
def ChunkList.applyOp {α : Type} (s : ChunkList α) (op : Op α) : ChunkList α :=
  match op with
  | .push v => match s.push_back v with | .ok s' => s' | .error _ => s
  | .pop => match s.pop_back with | .ok s' => s' | .error _ => s
  | .resize n fill => match s.resize n fill with | .ok s' => s' | .error _ => s
  | .clear => s.clear

/-- Run a sequence of operations. -/
def ChunkList.run {α : Type} (s : ChunkList α) (ops : List (Op α)) : ChunkList α :=
  ops.foldl ChunkList.applyOp s

/-- Append a sequence of values. -/
def ChunkList.pushAll {α : Type} (s : ChunkList α) (vs : List α) : ChunkList α :=
  s.run (vs.map Op.push)

/-- The shape invariant on the raw chunk storage: every chunk but the last is
full, and every chunk holds between 1 and `cap` elements. -/
def ChunksShape {α : Type} (cap : Nat) (l : List (Chunk α)) : Prop :=
  (∀ c ∈ l.dropLast, c.vals.length = cap) ∧
  (∀ c ∈ l, 1 ≤ c.vals.length ∧ c.vals.length ≤ cap)

/-- The store-level shape invariant: every segment but the last is full, every
segment holds between 1 and capacity elements, and the segment list is empty
exactly when the element count is zero. -/
def ChunkList.Shape {α : Type} (s : ChunkList α) : Prop :=
  ChunksShape s.cap s.list ∧ (s.list = [] ↔ s.size = 0)

/-- Well-formedness: positive capacity, shape of the chunk storage, and
consistency of `size_` with the stored elements. -/
def ChunkList.WF {α : Type} (s : ChunkList α) : Prop :=
  0 < s.cap ∧ ChunksShape s.cap s.list ∧ s.size = (listElems s.list).length

instance {α : Type} (cap : Nat) (l : List (Chunk α)) : Decidable (ChunksShape cap l) := by
  unfold ChunksShape; infer_instance

instance {α : Type} [DecidableEq α] (s : ChunkList α) : Decidable s.Shape := by
  unfold ChunkList.Shape; infer_instance

instance {α : Type} (s : ChunkList α) : Decidable s.WF := by
  unfold ChunkList.WF; infer_instance

/-- Recognize an append operation. -/
def isPushOp {α : Type} : Op α → Bool
  | .push _ => true
  | _ => false

/-- Recognize a removeLast operation. -/
def isPopOp {α : Type} : Op α → Bool
  | .pop => true
  | _ => false

/-- The interleavings considered by the accounting claim: sequences built
from appends and removeLasts only. -/
def pushPopOnly {α : Type} (ops : List (Op α)) : Prop :=
  ∀ op ∈ ops, isPushOp op = true ∨ isPopOp op = true

instance {α : Type} (ops : List (Op α)) : Decidable (pushPopOnly ops) := by
  unfold pushPopOnly; infer_instance

/-- Every removeLast in the sequence hits a non-empty store, i.e. is a
successful removeLast. -/
def popsOk {α : Type} : ChunkList α → List (Op α) → Bool
  | _, [] => true
  | s, op :: rest =>
    (match op with
     | .pop => s.size != 0
     | _ => true) && popsOk (s.applyOp op) rest

/-! ## Stream (src/stream.h) -/

/-- The array-backed stream.  `alloc` is the allocation identity of the
current backing `new Data[]` array (`none` models the null pointer of the
zero-capacity constructor), `data` holds the first `size_` elements, and
`nextAlloc` draws fresh allocation identities, modelling that `new` returns
storage distinct from every live allocation. -/
structure Stream (α : Type) where
  alloc : Option Nat
  data : List α
  capacity : Nat
  nextAlloc : Nat
deriving DecidableEq, Repr

/-- `Stream(cp)` (stream.h:63-74): null backing array when `cp == 0`,
otherwise a fresh allocation of capacity `cp`. -/
def Stream.init (α : Type) (cp : Nat) : Stream α :=
  if cp = 0 then ⟨none, [], 0, 0⟩ else ⟨some 0, [], cp, 1⟩

/-- `Stream::extend(factor)` (stream.h:38-51): raise the capacity to at least
4, multiply it by `factor`, allocate a fresh array, copy the stored elements
into it and free the old array.  The backing allocation changes. -/
def Stream.extend {α : Type} (s : Stream α) (factor : Nat) : Stream α :=
  let c1 := if s.capacity < 4 then 4 else s.capacity
  ⟨some s.nextAlloc, s.data, c1 * factor, s.nextAlloc + 1⟩

/-- `Stream::put` (stream.h:124-130): extend (with the default factor 2) when
full, then store at index `size_` and increment `size_`. -/
def Stream.put {α : Type} (s : Stream α) (d : α) : Stream α :=
  let s1 := if s.data.length = s.capacity then s.extend 2 else s
  { s1 with data := s1.data ++ [d] }

/-- The storage address of element `i`: the backing allocation's identity
paired with the offset. -/
def Stream.addrOf {α : Type} (s : Stream α) (i : Nat) : Option (Nat × Nat) :=
  s.alloc.map fun a => (a, i)

/-! ## Barrier (src/include/utils/thread.h, class bar_t) -/

/-- The primitive actions appearing in `bar_t::wait`. -/
inductive BarEvent where
  | lockAcquire
  | readGeneration
  | decRemaining
  | lockRelease
  | resetRemaining
  | incGeneration
  | runCallback
  | notifyAll
deriving DecidableEq, Repr

/-- The sequence of actions executed by the LAST thread arriving at
`bar_t::wait` (thread.h:126-149), in source order: `mutex_begin` acquires the
mutex (line 127); `curBarCount = barCount_` (line 128); `remain_--`
(line 129); the last arrival skips the wait branch and reaches `mutex_end()`
(line 138) which destroys the `unique_lock`, releasing the mutex; then
`remain_ = threadCount_` (line 141), `barCount_++` (line 143), the serial
callback (line 145) and `cv_.notify_all()` (line 147) all run after the
release. -/
def barWaitLastArrival : List BarEvent :=
  [.lockAcquire, .readGeneration, .decRemaining, .lockRelease,
   .resetRemaining, .incGeneration, .runCallback, .notifyAll]

/-- Position of the first occurrence of an event in an event list. -/
def posIn (es : List BarEvent) (e : BarEvent) : Nat :=
  match es with
  | [] => 0
  | x :: rest => if x = e then 0 else posIn rest e + 1

/-- The ordering asserted by the specification for the serial point: the
`remaining` reset, the `generation` increment and the callback all happen
before the exclusive lock is released, and only then are the blocked
participants broadcast-woken. -/
def claimedSerialOrdering (es : List BarEvent) : Prop :=
  posIn es .resetRemaining < posIn es .lockRelease ∧
  posIn es .incGeneration < posIn es .lockRelease ∧
  posIn es .runCallback < posIn es .lockRelease ∧
  posIn es .lockRelease < posIn es .notifyAll

/-! ## Thread pool (src/include/utils/thread.h, class thread_pool_t) -/

/-- `thread_pool_t::TaskQueue`: the FIFO of (non-empty) tasks plus the
`stop_` flag.  A task is `Option σ`, `none` being the empty
`std::function` sentinel. -/
structure TaskQueue (σ : Type) where
  queue : List σ
  stop : Bool
deriving DecidableEq, Repr

/-- `TaskQueue::enqueue` (thread.h:191-204): under the lock, throw
`PermissionException` when stopped, then `InvalidArgumentException` when the
task is empty, else push.  The state component of the result is the queue
after the call, unchanged when a signal is raised (both throws precede the
push). -/
def TaskQueue.enqueue {σ : Type} (q : TaskQueue σ) (task : Option σ) :
    TaskQueue σ × Option Err :=
  if q.stop then (q, some .permissionDenied)
  else
    match task with
    | none => (q, some .invalidArgument)
    | some t => ({ q with queue := q.queue ++ [t] }, none)

/-- `TaskQueue::dequeue` (thread.h:210-221): `none` when the caller stays
blocked (queue empty and open); `some (none, q)` when stopped and drained
(the empty sentinel); `some (some t, q')` when the front task is removed. -/
def TaskQueue.dequeue {σ : Type} (q : TaskQueue σ) : Option (Option σ × TaskQueue σ) :=
  match q.queue with
  | t :: rest => some (some t, { q with queue := rest })
  | [] => if q.stop then some (none, q) else none

/-- `TaskQueue::close` (thread.h:227-232). -/
def TaskQueue.close {σ : Type} (q : TaskQueue σ) : TaskQueue σ :=
  { q with stop := true }

/-- `thread_pool_t`: worker queues, the pool-wide pending counter
`taskCount_`, and the round-robin cursor `curThreadIdx_`. -/
structure Pool (σ : Type) where
  threadCount : Nat
  queues : List (TaskQueue σ)
  taskCount : Nat
  curThreadIdx : Nat
deriving DecidableEq, Repr

/-- `thread_pool_t::next_tid` (thread.h:328-330). -/
def Pool.next_tid {σ : Type} (p : Pool σ) : Pool σ × Nat :=
  let t := (p.curThreadIdx + 1) % p.threadCount
  ({ p with curThreadIdx := t }, t)

/-- `if (tid == INV_TID) tid = next_tid();` (thread.h:293-295). -/
def Pool.resolveTid {σ : Type} (p : Pool σ) (tidArg : Option Nat) : Pool σ × Nat :=
  match tidArg with
  | some t => (p, t)
  | none => p.next_tid

/-- The first half of `thread_pool_t::add_task` (thread.h:292-299): resolve
the target thread, then increment `taskCount_` under `taskLock_`. -/
def Pool.addTaskPre {σ : Type} (p : Pool σ) (tidArg : Option Nat) : Pool σ × Nat :=
  let r := p.resolveTid tidArg
  ({ r.1 with taskCount := r.1.taskCount + 1 }, r.2)

/-- The second half of `thread_pool_t::add_task` (thread.h:301):
`queues_[tid].enqueue(task)`.  A signal raised by the enqueue propagates,
leaving the pool with the counter already incremented and the queue
unchanged.  The `none` branch models out-of-bounds vector indexing
(undefined in the source), unreachable for a valid thread id. -/
def Pool.enqueueStep {σ : Type} (p : Pool σ) (t : Nat) (task : Option σ) :
    Pool σ × Option Err :=
  match p.queues[t]? with
  | none => (p, some .outOfRange)
  | some q =>
    match q.enqueue task with
    | (q', none) => ({ p with queues := p.queues.set t q' }, none)
    | (_, some e) => (p, some e)

/-- `thread_pool_t::add_task` (thread.h:292-302): the counter increment
strictly precedes the enqueue. -/
def Pool.add_task {σ : Type} (p : Pool σ) (task : Option σ) (tidArg : Option Nat) :
    Pool σ × Option Err :=
  let r := p.addTaskPre tidArg
  r.1.enqueueStep r.2 task

/-- The predicate on which `thread_pool_t::wait_all` (thread.h:308-312)
waits: `taskCount_ == 0`.  `wait_all` returns exactly when it is true. -/
def Pool.waitAllCanReturn {σ : Type} (p : Pool σ) : Bool :=
  p.taskCount == 0

/-- One observable state change by a worker thread running
`thread_pool_t::thread_func` (thread.h:332-345), with no concurrent
submissions: dequeue a (non-sentinel) task from its own queue, execute it,
and decrement `taskCount_`.  A worker that dequeues the empty sentinel
terminates without touching the pool state, and a worker whose queue is
empty and open stays blocked, so neither contributes a step. -/
inductive WorkerStep (σ : Type) : Pool σ → Pool σ → Prop where
  | exec (p : Pool σ) (tid : Nat) (q : TaskQueue σ) (t : σ) (q' : TaskQueue σ) :
      p.queues[tid]? = some q →
      q.dequeue = some (some t, q') →
      WorkerStep σ p { p with queues := p.queues.set tid q', taskCount := p.taskCount - 1 }

/-! ## Basic lemmas about the chunk storage -/

lemma listElems_nil {α : Type} : listElems ([] : List (Chunk α)) = [] := rfl

lemma listElems_cons {α : Type} (c : Chunk α) (l : List (Chunk α)) :
    listElems (c :: l) = c.vals ++ listElems l := by
  simp [listElems]

lemma listElems_append {α : Type} (l₁ l₂ : List (Chunk α)) :
    listElems (l₁ ++ l₂) = listElems l₁ ++ listElems l₂ := by
  simp [listElems]

lemma listAddrs_nil {α : Type} : listAddrs ([] : List (Chunk α)) = [] := rfl

lemma listAddrs_cons {α : Type} (c : Chunk α) (l : List (Chunk α)) :
    listAddrs (c :: l) =
      (List.range c.vals.length).map (fun j => (c.id, j)) ++ listAddrs l := by
  simp [listAddrs]

lemma listAddrs_append {α : Type} (l₁ l₂ : List (Chunk α)) :
    listAddrs (l₁ ++ l₂) = listAddrs l₁ ++ listAddrs l₂ := by
  simp [listAddrs]

lemma listElems_concat {α : Type} (L : List (Chunk α)) (c : Chunk α) :
    listElems (L ++ [c]) = listElems L ++ c.vals := by
  simp [listElems]

lemma listAddrs_concat {α : Type} (L : List (Chunk α)) (c : Chunk α) :
    listAddrs (L ++ [c]) =
      listAddrs L ++ (List.range c.vals.length).map (fun j => (c.id, j)) := by
  simp [listAddrs]

lemma listAddrs_length {α : Type} (l : List (Chunk α)) :
    (listAddrs l).length = (listElems l).length := by
  induction l with
  | nil => simp [listAddrs, listElems]
  | cons c rest ih => simp [listAddrs, listElems] at ih ⊢; omega

/-- Unfolding of `push_back` on an empty list. -/
lemma push_back_nil {α : Type} (s : ChunkList α) (v : α)
    (hnil : s.list = []) (hcap : 0 < s.cap) :
    s.push_back v =
      .ok { s with list := [⟨s.nextId, [v]⟩], nextId := s.nextId + 1, size := s.size + 1 } := by
  simp [ChunkList.push_back, hnil, Chunk.push_back, hcap]

/-- Unfolding of `push_back` when the last chunk has room. -/
lemma push_back_notfull {α : Type} (s : ChunkList α) (v : α) (L : List (Chunk α)) (b : Chunk α)
    (hs : s.list = L ++ [b]) (hlt : b.vals.length < s.cap) :
    s.push_back v =
      .ok { s with list := L ++ [⟨b.id, b.vals ++ [v]⟩], size := s.size + 1 } := by
  simp [ChunkList.push_back, hs, Chunk.push_back, hlt, List.getLast?_concat,
    List.dropLast_concat]

/-- Unfolding of `push_back` when the last chunk is full: a fresh chunk is
linked at the tail and the push retried there. -/
lemma push_back_full {α : Type} (s : ChunkList α) (v : α) (L : List (Chunk α)) (b : Chunk α)
    (hs : s.list = L ++ [b]) (hge : s.cap ≤ b.vals.length) (hcap : 0 < s.cap) :
    s.push_back v =
      .ok { s with
            list := (L ++ [b]) ++ [⟨s.nextId, [v]⟩]
            nextId := s.nextId + 1
            size := s.size + 1 } := by
  simp [ChunkList.push_back, hs, Chunk.push_back, Nat.not_lt.mpr hge, hcap,
    List.getLast?_concat]

/-- With zero chunk capacity (excluded by the source's static_assert) the
retried push also overflows and the signal escapes. -/
lemma push_back_cap0 {α : Type} (s : ChunkList α) (v : α) (hcap : s.cap = 0) :
    s.push_back v = .error .overflow := by
  rcases List.eq_nil_or_concat s.list with hnil | ⟨L, b, hLb⟩
  · simp [ChunkList.push_back, hnil, hcap, Chunk.push_back]
  · simp [ChunkList.push_back, List.concat_eq_append] at hLb
    simp [ChunkList.push_back, hLb, hcap, Chunk.push_back, List.getLast?_concat]

/-- A successful append adds `v` at the end of the stored sequence, adds one
address at the end of the address sequence, and leaves capacity alone. -/
lemma push_back_spec {α : Type} (s : ChunkList α) (v : α) (s' : ChunkList α)
    (h : s.push_back v = .ok s') :
    s'.elems = s.elems ++ [v] ∧ (∃ a, s'.addrs = s.addrs ++ [a]) ∧
      s'.size = s.size + 1 ∧ s'.cap = s.cap := by
  by_cases hcap : 0 < s.cap
  · rcases List.eq_nil_or_concat s.list with hnil | ⟨L, b, hLb⟩
    · rw [push_back_nil s v hnil hcap] at h
      obtain rfl : _ = s' := Except.ok.inj h
      refine ⟨?_, ⟨(s.nextId, 0), ?_⟩, rfl, rfl⟩
      · simp [ChunkList.elems, hnil, listElems]
      · simp [ChunkList.addrs, hnil, listAddrs, List.range_succ, List.range_zero]
    · rw [List.concat_eq_append] at hLb
      by_cases hlt : b.vals.length < s.cap
      · rw [push_back_notfull s v L b hLb hlt] at h
        obtain rfl : _ = s' := Except.ok.inj h
        refine ⟨?_, ⟨(b.id, b.vals.length), ?_⟩, rfl, rfl⟩
        · simp [ChunkList.elems, hLb, listElems_concat]
        · simp [ChunkList.addrs, hLb, listAddrs_concat, List.range_succ]
      · rw [push_back_full s v L b hLb (Nat.not_lt.mp hlt) hcap] at h
        obtain rfl : _ = s' := Except.ok.inj h
        refine ⟨?_, ⟨(s.nextId, 0), ?_⟩, rfl, rfl⟩
        · simp [ChunkList.elems, hLb, listElems_append, listElems_cons, listElems_nil]
        · simp [ChunkList.addrs, hLb, listAddrs_append, listAddrs_cons, listAddrs_nil,
            List.range_succ, List.range_zero]
  · rw [push_back_cap0 s v (Nat.eq_zero_of_not_pos hcap)] at h
    exact absurd h (by simp)

/-- Append always succeeds when the chunk capacity is positive: a chunk-level
overflow is caught, a fresh chunk is linked, and the retried push lands in
the empty chunk. -/
lemma push_back_ok_of_cap {α : Type} (s : ChunkList α) (v : α) (hcap : 0 < s.cap) :
    ∃ s', s.push_back v = .ok s' := by
  rcases List.eq_nil_or_concat s.list with hnil | ⟨L, b, hLb⟩
  · exact ⟨_, push_back_nil s v hnil hcap⟩
  · rw [List.concat_eq_append] at hLb
    by_cases hlt : b.vals.length < s.cap
    · exact ⟨_, push_back_notfull s v L b hLb hlt⟩
    · exact ⟨_, push_back_full s v L b hLb (Nat.not_lt.mp hlt) hcap⟩

/-- Indexing into the concatenation of a list of blocks, when every block but
the last holds exactly `cap` elements and none holds more: element `i` lives
in block `i / cap` at offset `i % cap`. -/
lemma flatten_getElem_div_mod {α : Type} (cap : Nat) (hcap : 0 < cap) (ls : List (List α)) :
    (∀ l ∈ ls.dropLast, l.length = cap) → (∀ l ∈ ls, l.length ≤ cap) →
      ∀ i, i < ls.flatten.length →
        ls.flatten[i]? = ls[i / cap]?.bind fun l => l[i % cap]? := by
  induction ls with
  | nil => intro _ _ i hi; simp at hi
  | cons l rest ih =>
    intro hfull hle i hi
    rcases Nat.lt_or_ge i l.length with hil | hil
    · have hicap : i < cap := by
        cases rest with
        | nil => exact lt_of_lt_of_le hil (hle l (by simp))
        | cons r rs =>
          have : l.length = cap := hfull l (by rw [List.dropLast_cons₂]; simp)
          omega
      rw [List.flatten_cons, List.getElem?_append_left hil,
        Nat.div_eq_of_lt hicap, Nat.mod_eq_of_lt hicap]
      simp
    · cases rest with
      | nil =>
        rw [List.flatten_cons] at hi
        simp at hi
        omega
      | cons r rs =>
        have hlcap : l.length = cap := hfull l (by rw [List.dropLast_cons₂]; simp)
        have hige : cap ≤ i := hlcap ▸ hil
        have hi' : i - l.length < (r :: rs).flatten.length := by
          rw [List.flatten_cons, List.length_append] at hi
          omega
        rw [List.flatten_cons, List.getElem?_append_right hil,
          Nat.div_eq_sub_div hcap hige, Nat.mod_eq_sub_mod hige,
          List.getElem?_cons_succ, hlcap]
        exact ih (fun x hx => hfull x (by rw [List.dropLast_cons₂]; exact List.mem_cons_of_mem l hx))
          (fun x hx => hle x (List.mem_cons_of_mem l hx)) (i - cap) (hlcap ▸ hi')

/-- Under well-formedness, in-range access resolves to the element stored at
that position. -/
lemma atIdx_elems {α : Type} (s : ChunkList α) (hWF : s.WF) (i : Nat) (hi : i < s.size) :
    s.atIdx i = .ok s.elems[i]? := by
  obtain ⟨hcap, ⟨hfull, hle⟩, hsize⟩ := hWF
  have key := flatten_getElem_div_mod s.cap hcap (s.list.map Chunk.vals)
    (fun x hx => by
      rw [← List.map_dropLast] at hx
      obtain ⟨c, hc, rfl⟩ := List.mem_map.mp hx
      exact hfull c hc)
    (fun x hx => by
      obtain ⟨c, hc, rfl⟩ := List.mem_map.mp hx
      exact (hle c hc).2)
    i (by
      have hlen : (s.list.map Chunk.vals).flatten = listElems s.list := rfl
      rw [hlen, ← hsize]
      exact hi)
  rw [ChunkList.atIdx, if_neg (by omega)]
  rw [show s.elems[i]? = (s.list.map Chunk.vals).flatten[i]? from rfl, key,
    List.getElem?_map]
  rcases hq : s.list[i / s.cap]? with - | c <;> simp [hq]

/-- The fresh store is well-formed for any positive capacity. -/
lemma WF_empty {α : Type} (cap : Nat) (hcap : 0 < cap) : (ChunkList.empty α cap).WF :=
  ⟨hcap, ⟨by simp [ChunkList.empty], by simp [ChunkList.empty]⟩, by simp [ChunkList.empty, listElems]⟩

/-- Append preserves well-formedness. -/
lemma push_back_WF {α : Type} (s : ChunkList α) (v : α) (s' : ChunkList α) (hWF : s.WF)
    (h : s.push_back v = .ok s') : s'.WF := by
  obtain ⟨hcap, ⟨hfull, hle⟩, hsize⟩ := hWF
  rcases List.eq_nil_or_concat s.list with hnil | ⟨L, b, hLb⟩
  · rw [push_back_nil s v hnil hcap] at h
    obtain rfl : _ = s' := Except.ok.inj h
    refine ⟨hcap, ⟨by simp, ?_⟩, ?_⟩
    · intro c hc
      simp at hc
      subst hc
      simp
      omega
    · rw [hnil] at hsize
      simp [listElems] at hsize ⊢
      omega
  · rw [List.concat_eq_append] at hLb
    have hbmem : b ∈ s.list := hLb ▸ List.mem_append_right _ (by simp)
    by_cases hlt : b.vals.length < s.cap
    · rw [push_back_notfull s v L b hLb hlt] at h
      obtain rfl : _ = s' := Except.ok.inj h
      refine ⟨hcap, ⟨?_, ?_⟩, ?_⟩
      · intro c hc
        rw [List.dropLast_concat] at hc
        exact hfull c (by rw [hLb, List.dropLast_concat]; exact hc)
      · intro c hc
        rcases List.mem_append.mp hc with hcL | hcb
        · exact hle c (hLb ▸ List.mem_append_left _ hcL)
        · simp at hcb
          subst hcb
          simp
          omega
      · rw [hLb] at hsize
        rw [listElems_concat] at hsize ⊢
        simp at hsize ⊢
        omega
    · rw [push_back_full s v L b hLb (Nat.not_lt.mp hlt) hcap] at h
      obtain rfl : _ = s' := Except.ok.inj h
      have hbcap : b.vals.length = s.cap :=
        Nat.le_antisymm (hle b hbmem).2 (Nat.not_lt.mp hlt)
      refine ⟨hcap, ⟨?_, ?_⟩, ?_⟩
      · intro c hc
        rw [List.dropLast_concat] at hc
        rcases List.mem_append.mp hc with hcL | hcb
        · exact hfull c (by rw [hLb, List.dropLast_concat]; exact hcL)
        · simp at hcb
          subst hcb
          exact hbcap
      · intro c hc
        rcases List.mem_append.mp hc with hcold | hcnew
        · exact hle c (hLb ▸ hcold)
        · simp at hcnew
          subst hcnew
          simp
          omega
      · rw [hLb] at hsize
        rw [listElems_concat] at hsize
        rw [listElems_concat, listElems_concat]
        simp at hsize ⊢
        omega

/-- Appending a whole list preserves well-formedness and appends the values
to the stored sequence. -/
lemma pushAll_spec {α : Type} (vs : List α) : ∀ (s : ChunkList α), s.WF →
    (s.pushAll vs).WF ∧ (s.pushAll vs).elems = s.elems ++ vs ∧
      (s.pushAll vs).size = s.size + vs.length ∧ (s.pushAll vs).cap = s.cap := by
  induction vs with
  | nil => intro s hWF; simpa [ChunkList.pushAll, ChunkList.run] using hWF
  | cons v rest ih =>
    intro s hWF
    obtain ⟨s', hok⟩ := push_back_ok_of_cap s v hWF.1
    have happ : s.applyOp (.push v) = s' := by simp [ChunkList.applyOp, hok]
    have hWF' := push_back_WF s v s' hWF hok
    obtain ⟨he, -, hsz, hcap⟩ := push_back_spec s v s' hok
    have hstep : s.pushAll (v :: rest) = s'.pushAll rest := by
      simp [ChunkList.pushAll, ChunkList.run, happ]
    obtain ⟨hWF2, he2, hsz2, hcap2⟩ := ih s' hWF'
    refine ⟨hstep ▸ hWF2, ?_, ?_, ?_⟩
    · rw [hstep, he2, he]
      simp
    · rw [hstep, hsz2, hsz]
      simp
      omega
    · rw [hstep, hcap2, hcap]

/-- Unfolding of `pop_back` when the last chunk holds exactly one element:
the emptied chunk is unlinked. -/
lemma pop_back_unfold_one {α : Type} (s : ChunkList α) (L : List (Chunk α)) (b : Chunk α)
    (hs : s.list = L ++ [b]) (hne : s.size ≠ 0) (hone : b.vals.length = 1) :
    s.pop_back = .ok { s with list := L, size := s.size - 1 } := by
  have hdrop : b.vals.dropLast = [] :=
    List.length_eq_zero.mp (by rw [List.length_dropLast, hone])
  simp [ChunkList.pop_back, hs, hne, Chunk.pop_back, List.getLast?_concat, hone, hdrop,
    List.dropLast_concat]

/-- Unfolding of `pop_back` when the last chunk holds at least two elements:
the chunk merely shrinks by one. -/
lemma pop_back_unfold_many {α : Type} (s : ChunkList α) (L : List (Chunk α)) (b : Chunk α)
    (hs : s.list = L ++ [b]) (hne : s.size ≠ 0) (h2 : 2 ≤ b.vals.length) :
    s.pop_back =
      .ok { s with list := L ++ [⟨b.id, b.vals.dropLast⟩], size := s.size - 1 } := by
  have hdrop : b.vals.dropLast.isEmpty = false := by
    rw [← Bool.not_eq_true, List.isEmpty_iff]
    intro hnil
    have hlen := List.length_dropLast b.vals
    rw [hnil] at hlen
    simp at hlen
    omega
  have hpop : Chunk.pop_back b = .ok ⟨b.id, b.vals.dropLast⟩ := by
    rw [Chunk.pop_back, if_neg (by omega : ¬ b.vals.length = 0)]
  simp [ChunkList.pop_back, hs, hne, List.getLast?_concat, hpop, hdrop,
    List.dropLast_concat]

/-- Removal from a non-empty well-formed store succeeds, preserves
well-formedness and decrements the size by one. -/
lemma pop_back_spec {α : Type} (s : ChunkList α) (hWF : s.WF) (hne : s.size ≠ 0) :
    ∃ s', s.pop_back = .ok s' ∧ s'.WF ∧ s'.size = s.size - 1 ∧ s'.cap = s.cap := by
  obtain ⟨hcap, ⟨hfull, hle⟩, hsize⟩ := hWF
  rcases List.eq_nil_or_concat s.list with hnil | ⟨L, b, hLb⟩
  · rw [hnil] at hsize
    simp [listElems] at hsize
    omega
  · rw [List.concat_eq_append] at hLb
    have hb := hle b (hLb ▸ List.mem_append_right _ (by simp))
    have hsz' : s.size = (listElems L).length + b.vals.length := by
      rw [hLb, listElems_concat] at hsize
      simpa using hsize
    rcases Nat.lt_or_ge b.vals.length 2 with h1 | h2
    · have hone : b.vals.length = 1 := by omega
      refine ⟨_, pop_back_unfold_one s L b hLb hne hone, ⟨hcap, ⟨?_, ?_⟩, ?_⟩, rfl, rfl⟩
      · intro c hc
        exact hfull c (by
          rw [hLb, List.dropLast_concat]
          exact List.dropLast_subset L hc)
      · intro c hc
        exact hle c (hLb ▸ List.mem_append_left _ hc)
      · simp
        omega
    · refine ⟨_, pop_back_unfold_many s L b hLb hne h2, ⟨hcap, ⟨?_, ?_⟩, ?_⟩, rfl, rfl⟩
      · intro c hc
        rw [List.dropLast_concat] at hc
        exact hfull c (by rw [hLb, List.dropLast_concat]; exact hc)
      · intro c hc
        rcases List.mem_append.mp hc with hcL | hcb
        · exact hle c (hLb ▸ List.mem_append_left _ hcL)
        · simp at hcb
          subst hcb
          simp [List.length_dropLast]
          omega
      · simp [listElems_concat, List.length_dropLast]
        omega

/-- Pending-size accounting along any push/pop sequence whose pops all
succeed, plus preservation of well-formedness. -/
lemma run_size_count {α : Type} (ops : List (Op α)) : ∀ s : ChunkList α, s.WF →
    pushPopOnly ops → popsOk s ops = true →
    (s.run ops).size + ops.countP isPopOp = s.size + ops.countP isPushOp ∧
      (s.run ops).WF := by
  induction ops with
  | nil =>
    intro s hWF _ _
    exact ⟨by simp [ChunkList.run], by simpa [ChunkList.run] using hWF⟩
  | cons op rest ih =>
    intro s hWF honly hpops
    have hstep : s.run (op :: rest) = (s.applyOp op).run rest := by
      simp [ChunkList.run]
    have honly' : pushPopOnly rest := fun o ho => honly o (List.mem_cons_of_mem _ ho)
    have hop := honly op (by simp)
    cases op with
    | push v =>
      obtain ⟨s', hok⟩ := push_back_ok_of_cap s v hWF.1
      have happ : s.applyOp (.push v) = s' := by simp [ChunkList.applyOp, hok]
      have hWF' := push_back_WF s v s' hWF hok
      obtain ⟨-, -, hsz, -⟩ := push_back_spec s v s' hok
      have hpops' : popsOk s' rest = true := by
        simp only [popsOk, Bool.true_and] at hpops
        rw [← happ]
        exact hpops
      obtain ⟨heq, hWF2⟩ := ih s' hWF' honly' hpops'
      rw [hstep, happ]
      refine ⟨?_, hWF2⟩
      rw [List.countP_cons_of_neg isPopOp rest
          (by rw [show isPopOp (Op.push v) = false from rfl]; simp),
        List.countP_cons_of_pos isPushOp rest (by rfl)]
      omega
    | pop =>
      rw [popsOk, Bool.and_eq_true] at hpops
      have hne : s.size ≠ 0 := by simpa using hpops.1
      obtain ⟨s', hok, hWF', hsz, -⟩ := pop_back_spec s hWF hne
      have happ : s.applyOp .pop = s' := by simp [ChunkList.applyOp, hok]
      have hpops' : popsOk s' rest = true := by
        rw [← happ]
        exact hpops.2
      obtain ⟨heq, hWF2⟩ := ih s' hWF' honly' hpops'
      rw [hstep, happ]
      refine ⟨?_, hWF2⟩
      rw [List.countP_cons_of_pos isPopOp rest (by rfl),
        List.countP_cons_of_neg isPushOp rest
          (by rw [show isPushOp (Op.pop : Op α) = false from rfl]; simp)]
      omega
    | resize n f =>
      rcases hop with h | h <;> simp [isPushOp, isPopOp] at h
    | clear =>
      rcases hop with h | h <;> simp [isPushOp, isPopOp] at h

/-- When the grow loop decides to link a new chunk, every existing chunk is
full. -/
lemma chunksShape_all_full {α : Type} (cap : Nat) (l : List (Chunk α))
    (hshape : ChunksShape cap l) (hfe : lastFullOrEmpty cap l = true) :
    ∀ c ∈ l, c.vals.length = cap := by
  rcases List.eq_nil_or_concat l with rfl | ⟨L, b, hLb⟩
  · simp
  · rw [List.concat_eq_append] at hLb
    subst hLb
    have hb : b.vals.length = cap := by
      simp [lastFullOrEmpty, List.getLast?_concat] at hfe
      exact hfe
    intro c hc
    rcases List.mem_append.mp hc with hcL | hcb
    · exact hshape.1 c (by rw [List.dropLast_concat]; exact hcL)
    · simp at hcb
      subst hcb
      exact hb

/-- Grow-loop iteration that links a fresh chunk (the list is empty or its
last chunk is full) and fills it with `min diff cap` copies of the fill. -/
lemma growLoop_step_new {α : Type} (cap : Nat) (fill : α) (l : List (Chunk α))
    (nid diff fuel : Nat) (hd0 : diff ≠ 0) (hfe : lastFullOrEmpty cap l = true) :
    growLoop cap fill l nid diff (fuel + 1) =
      growLoop cap fill (l ++ [⟨nid, List.replicate (min diff cap) fill⟩]) (nid + 1)
        (diff - min diff cap) fuel := by
  simp [growLoop, hd0, hfe, List.getLast?_concat, List.dropLast_concat, Chunk.resizeFill,
    (show ¬ cap < 0 + min diff (cap - 0) by omega)]

/-- Grow-loop iteration that extends a non-full last chunk with
`min diff (cap - occup)` copies of the fill. -/
lemma growLoop_step_old {α : Type} (cap : Nat) (fill : α) (L : List (Chunk α)) (b : Chunk α)
    (nid diff fuel : Nat) (hd0 : diff ≠ 0) (hblt : b.vals.length < cap) :
    growLoop cap fill (L ++ [b]) nid diff (fuel + 1) =
      growLoop cap fill
        (L ++ [⟨b.id, b.vals ++ List.replicate (min diff (cap - b.vals.length)) fill⟩]) nid
        (diff - min diff (cap - b.vals.length)) fuel := by
  have hfe : lastFullOrEmpty cap (L ++ [b]) = false := by
    rw [lastFullOrEmpty, List.getLast?_concat]
    simp
    omega
  simp [growLoop, hd0, hfe, List.getLast?_concat, List.dropLast_concat, Chunk.resizeFill,
    (show ¬ cap < b.vals.length + min diff (cap - b.vals.length) by omega),
    List.take_of_length_le
      (show b.vals.length ≤ b.vals.length + min diff (cap - b.vals.length) by omega)]

/-- The grow loop, run with enough fuel (`diff ≤ fuel`) and positive
capacity, succeeds, preserves the chunk shape and adds exactly `diff`
elements. -/
lemma growLoop_spec {α : Type} (cap : Nat) (fill : α) (hcap : 0 < cap) :
    ∀ (fuel : Nat), ∀ (diff : Nat) (l : List (Chunk α)) (nid : Nat), diff ≤ fuel →
      ChunksShape cap l →
      ∃ l' nid', growLoop cap fill l nid diff fuel = .ok (l', nid') ∧
        ChunksShape cap l' ∧
        (listElems l').length = (listElems l).length + diff := by
  intro fuel
  induction fuel with
  | zero =>
    intro diff l nid hdf hshape
    have hz : diff = 0 := by omega
    subst hz
    exact ⟨l, nid, rfl, hshape, by omega⟩
  | succ fuel ih =>
    intro diff l nid hdf hshape
    by_cases hd0 : diff = 0
    · subst hd0
      exact ⟨l, nid, by simp [growLoop], hshape, by omega⟩
    · cases hfe : lastFullOrEmpty cap l with
      | true =>
        have hall := chunksShape_all_full cap l hshape hfe
        have hshape2 :
            ChunksShape cap (l ++ [⟨nid, List.replicate (min diff cap) fill⟩]) := by
          constructor
          · intro c hc
            rw [List.dropLast_concat] at hc
            exact hall c hc
          · intro c hc
            rcases List.mem_append.mp hc with hcl | hcn
            · have := hall c hcl
              exact ⟨by omega, by omega⟩
            · simp at hcn
              subst hcn
              simp
              omega
        obtain ⟨l', nid', heq, hsh', hln⟩ :=
          ih (diff - min diff cap) (l ++ [⟨nid, List.replicate (min diff cap) fill⟩])
            (nid + 1) (by omega) hshape2
        refine ⟨l', nid', ?_, hsh', ?_⟩
        · rw [growLoop_step_new cap fill l nid diff fuel hd0 hfe, heq]
        · rw [hln, listElems_concat]
          simp
          omega
      | false =>
        rcases List.eq_nil_or_concat l with rfl | ⟨L, b, hLb⟩
        · rw [lastFullOrEmpty] at hfe
          simp at hfe
        · rw [List.concat_eq_append] at hLb
          subst hLb
          have hb := hshape.2 b (List.mem_append_right _ (by simp))
          have hbne : b.vals.length ≠ cap := by
            rw [lastFullOrEmpty, List.getLast?_concat] at hfe
            simpa using hfe
          have hblt : b.vals.length < cap := by omega
          have hshape2 : ChunksShape cap
              (L ++ [⟨b.id,
                b.vals ++ List.replicate (min diff (cap - b.vals.length)) fill⟩]) := by
            constructor
            · intro c hc
              rw [List.dropLast_concat] at hc
              exact hshape.1 c (by rw [List.dropLast_concat]; exact hc)
            · intro c hc
              rcases List.mem_append.mp hc with hcl | hcn
              · exact hshape.2 c (List.mem_append_left _ hcl)
              · simp at hcn
                subst hcn
                simp
                omega
          obtain ⟨l', nid', heq, hsh', hln⟩ :=
            ih (diff - min diff (cap - b.vals.length))
              (L ++ [⟨b.id, b.vals ++ List.replicate (min diff (cap - b.vals.length)) fill⟩])
              nid (by omega) hshape2
          refine ⟨l', nid', ?_, hsh', ?_⟩
          · rw [growLoop_step_old cap fill L b nid diff fuel hd0 hblt, heq]
          · rw [hln, listElems_concat, listElems_concat]
            simp
            omega

/-- The shrink loop, run with enough fuel, preserves the chunk shape and
removes exactly `diff` elements when `diff` is at most the element count. -/
lemma shrinkLoop_spec {α : Type} (cap : Nat) :
    ∀ (fuel : Nat), ∀ (l : List (Chunk α)) (diff : Nat), ChunksShape cap l →
      diff ≤ (listElems l).length → l.length < fuel →
      ChunksShape cap (shrinkLoop l diff fuel) ∧
        (listElems (shrinkLoop l diff fuel)).length = (listElems l).length - diff := by
  intro fuel
  induction fuel with
  | zero =>
    intro l diff _ _ h
    omega
  | succ fuel ih =>
    intro l diff hshape hdle hlen
    by_cases hd0 : diff = 0
    · subst hd0
      rw [show shrinkLoop l 0 (fuel + 1) = l by simp [shrinkLoop]]
      exact ⟨hshape, by omega⟩
    · rcases List.eq_nil_or_concat l with rfl | ⟨L, b, hLb⟩
      · simp [listElems] at hdle
        omega
      · rw [List.concat_eq_append] at hLb
        subst hLb
        have hb := hshape.2 b (List.mem_append_right _ (by simp))
        have hsplit : (listElems (L ++ [b])).length =
            (listElems L).length + b.vals.length := by
          rw [listElems_concat]
          simp
        by_cases hod : b.vals.length ≤ diff
        · have heq : shrinkLoop (L ++ [b]) diff (fuel + 1) =
              shrinkLoop L (diff - b.vals.length) fuel := by
            simp [shrinkLoop, hd0, List.getLast?_concat, hod, List.dropLast_concat]
          have hshapeL : ChunksShape cap L := by
            constructor
            · intro c hc
              exact hshape.1 c (by
                rw [List.dropLast_concat]
                exact List.dropLast_subset L hc)
            · intro c hc
              exact hshape.2 c (List.mem_append_left _ hc)
          obtain ⟨hsh, hln⟩ := ih L (diff - b.vals.length) hshapeL (by omega) (by
            simp at hlen ⊢
            omega)
          rw [heq]
          exact ⟨hsh, by omega⟩
        · have heq : shrinkLoop (L ++ [b]) diff (fuel + 1) =
              L ++ [⟨b.id, b.vals.take (b.vals.length - diff)⟩] := by
            simp [shrinkLoop, hd0, List.getLast?_concat, hod, List.dropLast_concat]
          rw [heq]
          refine ⟨⟨?_, ?_⟩, ?_⟩
          · intro c hc
            rw [List.dropLast_concat] at hc
            exact hshape.1 c (by rw [List.dropLast_concat]; exact hc)
          · intro c hc
            rcases List.mem_append.mp hc with hcl | hcn
            · exact hshape.2 c (List.mem_append_left _ hcl)
            · simp at hcn
              subst hcn
              simp
              omega
          · rw [listElems_concat]
            simp
            omega

/-- `resize` on a well-formed store succeeds, preserves well-formedness and
sets the size to the target. -/
lemma resize_spec {α : Type} (s : ChunkList α) (n : Nat) (fill : α) (hWF : s.WF) :
    ∃ s', s.resize n fill = .ok s' ∧ s'.WF ∧ s'.size = n ∧ s'.cap = s.cap := by
  obtain ⟨hcap, hshape, hsize⟩ := hWF
  by_cases hlt : s.size < n
  · obtain ⟨l', nid', heq, hsh', hln⟩ :=
      growLoop_spec s.cap fill hcap (n - s.size) (n - s.size) s.list s.nextId le_rfl hshape
    refine ⟨{ s with list := l', nextId := nid', size := n }, ?_, ⟨hcap, hsh', ?_⟩, rfl, rfl⟩
    · rw [ChunkList.resize, if_pos hlt, heq]
    · show n = (listElems l').length
      rw [hln]
      omega
  · obtain ⟨hsh', hln⟩ :=
      shrinkLoop_spec s.cap (s.list.length + 1) s.list (s.size - n) hshape (by omega)
        (by omega)
    refine ⟨{ s with list := shrinkLoop s.list (s.size - n) (s.list.length + 1), size := n },
      ?_, ⟨hcap, hsh', ?_⟩, rfl, rfl⟩
    · rw [ChunkList.resize, if_neg hlt]
    · show n = (listElems (shrinkLoop s.list (s.size - n) (s.list.length + 1))).length
      rw [hln]
      omega

/-- `clear` preserves well-formedness. -/
lemma clear_WF {α : Type} (s : ChunkList α) (hWF : s.WF) : s.clear.WF :=
  ⟨hWF.1, ⟨by simp [ChunkList.clear], by simp [ChunkList.clear]⟩,
    by simp [ChunkList.clear, listElems]⟩

/-- Every operation preserves well-formedness (a raised signal leaves the
store unchanged). -/
lemma applyOp_WF {α : Type} (s : ChunkList α) (op : Op α) (hWF : s.WF) :
    (s.applyOp op).WF := by
  cases op with
  | push v =>
    obtain ⟨s', hok⟩ := push_back_ok_of_cap s v hWF.1
    have := push_back_WF s v s' hWF hok
    simpa [ChunkList.applyOp, hok] using this
  | pop =>
    by_cases hne : s.size = 0
    · have herr : s.pop_back = .error .underflow := by
        simp [ChunkList.pop_back, hne]
      simpa [ChunkList.applyOp, herr] using hWF
    · obtain ⟨s', hok, hWF', -, -⟩ := pop_back_spec s hWF hne
      simpa [ChunkList.applyOp, hok] using hWF'
  | resize n fill =>
    obtain ⟨s', hok, hWF', -, -⟩ := resize_spec s n fill hWF
    simpa [ChunkList.applyOp, hok] using hWF'
  | clear => simpa [ChunkList.applyOp] using clear_WF s hWF

/-- Running any operation sequence preserves well-formedness. -/
lemma run_WF {α : Type} (ops : List (Op α)) : ∀ s : ChunkList α, s.WF →
    (s.run ops).WF := by
  induction ops with
  | nil => intro s h; simpa [ChunkList.run] using h
  | cons op rest ih =>
    intro s h
    rw [show s.run (op :: rest) = (s.applyOp op).run rest by simp [ChunkList.run]]
    exact ih _ (applyOp_WF s op h)

/-- Well-formedness implies the claimed shape invariant. -/
lemma WF_shape {α : Type} (s : ChunkList α) (hWF : s.WF) : s.Shape := by
  obtain ⟨hcap, hcs, hsize⟩ := hWF
  refine ⟨hcs, ⟨fun h => ?_, fun h0 => ?_⟩⟩
  · rw [h] at hsize
    simpa [listElems] using hsize
  · rcases List.eq_nil_or_concat s.list with hnil | ⟨L, b, hLb⟩
    · exact hnil
    · exfalso
      rw [List.concat_eq_append] at hLb
      have hb := hcs.2 b (hLb ▸ List.mem_append_right _ (by simp))
      rw [h0, hLb, listElems_concat] at hsize
      simp at hsize
      omega

/-! ## Claim theorems -/

/-- C1, counterexample: the claim extends stable addressing to every store
including the stream, but `Stream::put` relocates all stored elements when it
triggers `Stream::extend`: appending a second element to a capacity-1 stream
moves element 0 to a different allocation, so its address changes. -/
theorem stream_put_relocates :
    Stream.addrOf (Stream.put (Stream.put (Stream.init Nat 1) 10) 20) 0 ≠
        Stream.addrOf (Stream.put (Stream.init Nat 1) 10) 0 ∧
      (Stream.put (Stream.put (Stream.init Nat 1) 10) 20).data[0]? = some 10 := by
  decide

/-- C1 (amended): for the segmented store, appending never touches or
relocates an already-stored element: both the storage address and the value
of every element stored before the append are unchanged after it. -/
theorem chunkList_push_preserves_addresses {α : Type} (s : ChunkList α) (v : α)
    (s' : ChunkList α) (h : s.push_back v = .ok s') (i : Nat)
    (hi : i < s.addrs.length) :
    s'.addrs[i]? = s.addrs[i]? ∧ s'.elems[i]? = s.elems[i]? := by
  obtain ⟨helems, ⟨a, haddrs⟩, -, -⟩ := push_back_spec s v s' h
  have hlen : s.addrs.length = s.elems.length := listAddrs_length s.list
  constructor
  · rw [haddrs, List.getElem?_append_left hi]
  · rw [helems, List.getElem?_append_left (hlen ▸ hi)]

/-- C1 (amended), witness: a concrete append that grows the last chunk,
checked to preserve the address and value of element 2. -/
theorem chunkList_push_preserves_addresses_witness :
    ((ChunkList.pushAll (ChunkList.empty Nat 2) [1, 2, 3]).push_back 4 =
        .ok (⟨2, [⟨0, [1, 2]⟩, ⟨1, [3, 4]⟩], 4, 2⟩ : ChunkList Nat)) ∧
      2 < (ChunkList.pushAll (ChunkList.empty Nat 2) [1, 2, 3]).addrs.length ∧
      ((⟨2, [⟨0, [1, 2]⟩, ⟨1, [3, 4]⟩], 4, 2⟩ : ChunkList Nat).addrs[2]? =
          (ChunkList.pushAll (ChunkList.empty Nat 2) [1, 2, 3]).addrs[2]? ∧
        (⟨2, [⟨0, [1, 2]⟩, ⟨1, [3, 4]⟩], 4, 2⟩ : ChunkList Nat).elems[2]? =
          (ChunkList.pushAll (ChunkList.empty Nat 2) [1, 2, 3]).elems[2]?) :=
  ⟨by rfl, by decide,
    chunkList_push_preserves_addresses _ 4 _ (by rfl) 2 (by decide)⟩

/-- C2: the claim requires the last arrival to reset `remaining`, increment
the generation and run the callback all before releasing the exclusive lock.
In the source the lock is released first: `mutex_end()` (thread.h:138)
precedes the reset, increment, callback and broadcast (thread.h:141-147), so
the claimed ordering fails on the code's event order — the release strictly
precedes the reset. -/
theorem barrier_releases_lock_before_reset :
    ¬ claimedSerialOrdering barWaitLastArrival ∧
      posIn barWaitLastArrival .lockRelease < posIn barWaitLastArrival .resetRemaining := by
  unfold claimedSerialOrdering
  decide

/-- C7, counterexample: submitting the empty-sentinel task to a pool whose
target queue is already closed raises PermissionDenied, not InvalidArgument
as the claim requires, because `TaskQueue::enqueue` checks `stop_` before
checking the task (thread.h:193-200). -/
theorem submit_empty_on_closed_counterexample :
    (Pool.add_task (⟨1, [⟨[], true⟩], 0, 0⟩ : Pool Unit) none (some 0)).2 =
        some .permissionDenied ∧
      (Pool.add_task (⟨1, [⟨[], true⟩], 0, 0⟩ : Pool Unit) none (some 0)).2 ≠
        some .invalidArgument := by
  decide

/-- C7 (amended): for a pool and a valid target queue, submitting any task to
a closed queue raises PermissionDenied; submitting the empty-sentinel task to
an open queue raises InvalidArgument; a non-empty task on an open queue
raises nothing.  (The closed-queue check precedes the empty-task check.)
Both signals are returned synchronously from the call. -/
theorem submit_error_signals {σ : Type} (p : Pool σ) (task : Option σ) (t : Nat)
    (q : TaskQueue σ) (hq : p.queues[t]? = some q) :
    (q.stop = true → (p.add_task task (some t)).2 = some .permissionDenied) ∧
      (q.stop = false → task = none →
        (p.add_task task (some t)).2 = some .invalidArgument) ∧
      (q.stop = false → ∀ v, task = some v → (p.add_task task (some t)).2 = none) := by
  refine ⟨fun hstop => ?_, fun hstop htask => ?_, fun hstop v htask => ?_⟩
  · simp [Pool.add_task, Pool.addTaskPre, Pool.resolveTid, Pool.enqueueStep, hq,
      TaskQueue.enqueue, hstop]
  · subst htask
    simp [Pool.add_task, Pool.addTaskPre, Pool.resolveTid, Pool.enqueueStep, hq,
      TaskQueue.enqueue, hstop]
  · subst htask
    simp [Pool.add_task, Pool.addTaskPre, Pool.resolveTid, Pool.enqueueStep, hq,
      TaskQueue.enqueue, hstop]

/-- C7 (amended), witness: the empty-sentinel task on an open queue raises
InvalidArgument. -/
theorem submit_error_signals_witness :
    ((⟨1, [⟨[], false⟩], 0, 0⟩ : Pool Unit).queues[0]? = some ⟨[], false⟩) ∧
      (Pool.add_task (⟨1, [⟨[], false⟩], 0, 0⟩ : Pool Unit) none (some 0)).2 =
        some .invalidArgument :=
  ⟨by decide,
    (submit_error_signals (⟨1, [⟨[], false⟩], 0, 0⟩ : Pool Unit) none 0
        ⟨[], false⟩ (by decide)).2.1 rfl rfl⟩

/-- C8: `add_task` increments the pool-wide pending counter strictly before
the enqueue — the code after the increment is exactly the enqueue step and
the increment touches no queue — the in-flight state between increment and
enqueue has a nonzero counter, so the `wait_all` predicate is false there,
and that predicate holds exactly when the pending counter is zero. -/
theorem add_task_increments_before_enqueue {σ : Type} (p : Pool σ) (task : Option σ)
    (tidArg : Option Nat) :
    (p.addTaskPre tidArg).1.taskCount = p.taskCount + 1 ∧
      (p.addTaskPre tidArg).1.queues = p.queues ∧
      Pool.waitAllCanReturn (p.addTaskPre tidArg).1 = false ∧
      p.add_task task tidArg =
        (p.addTaskPre tidArg).1.enqueueStep (p.addTaskPre tidArg).2 task ∧
      (∀ r : Pool σ, Pool.waitAllCanReturn r = true ↔ r.taskCount = 0) := by
  refine ⟨?_, ?_, ?_, rfl, fun r => ?_⟩
  · cases tidArg <;> rfl
  · cases tidArg <;> rfl
  · cases tidArg <;>
      simp [Pool.addTaskPre, Pool.resolveTid, Pool.next_tid, Pool.waitAllCanReturn]
  · simp [Pool.waitAllCanReturn]

/-- C10: when a submission fails (empty-sentinel task, or closed target
queue), the pending counter has already been incremented and no code path
decrements it for the failed submission: the failing enqueue leaves every
queue untouched, and worker threads decrement only after dequeuing an actual
task, so with no other activity (all queues empty) every pool state reachable
by worker steps keeps the inflated counter and the `wait_all` predicate never
becomes true — a subsequent `wait_all` blocks forever. -/
theorem failed_submit_blocks_wait_all {σ : Type} (p : Pool σ) (task : Option σ)
    (tidArg : Option Nat) (p' : Pool σ) (e : Err)
    (hfail : p.add_task task tidArg = (p', some e))
    (hempty : ∀ q ∈ p.queues, q.queue = []) :
    p'.taskCount = p.taskCount + 1 ∧ p'.queues = p.queues ∧
      ∀ r, Relation.ReflTransGen (WorkerStep σ) p' r →
        r.taskCount = p.taskCount + 1 ∧ Pool.waitAllCanReturn r = false := by
  have hcount : (p.addTaskPre tidArg).1.taskCount = p.taskCount + 1 := by
    cases tidArg <;> rfl
  have hqs : (p.addTaskPre tidArg).1.queues = p.queues := by
    cases tidArg <;> rfl
  have hp' : p' = (p.addTaskPre tidArg).1 := by
    simp only [Pool.add_task, Pool.enqueueStep] at hfail
    split at hfail
    · exact (Prod.mk.inj hfail).1.symm
    · split at hfail
      · exact absurd (Prod.mk.inj hfail).2 (by simp)
      · exact (Prod.mk.inj hfail).1.symm
  subst hp'
  have hnostep : ∀ r, ¬ WorkerStep σ (p.addTaskPre tidArg).1 r := by
    intro r hstep
    cases hstep with
    | exec tid q t q' hgq hdq =>
      rw [hqs] at hgq
      have hmem : q ∈ p.queues := List.getElem?_mem hgq
      have hnilq : q.queue = [] := hempty q hmem
      rw [TaskQueue.dequeue, hnilq] at hdq
      cases hstop : q.stop <;> rw [hstop] at hdq <;> simp at hdq
  refine ⟨hcount, hqs, fun r hreach => ?_⟩
  rcases Relation.ReflTransGen.cases_head hreach with rfl | ⟨c, hstep, -⟩
  · exact ⟨hcount, by simp [Pool.waitAllCanReturn, hcount]⟩
  · exact absurd hstep (hnostep c)

/-- C10, witness: submitting the empty-sentinel task to a fresh one-worker
pool fails, leaves the counter at 1 and the (empty) queue untouched, and
every worker-step-reachable state keeps the counter at 1 with the `wait_all`
predicate false. -/
theorem failed_submit_blocks_wait_all_witness :
    (Pool.add_task (⟨1, [⟨[], false⟩], 0, 0⟩ : Pool Unit) none (some 0) =
        ((⟨1, [⟨[], false⟩], 1, 0⟩ : Pool Unit), some .invalidArgument)) ∧
      (∀ q ∈ (⟨1, [⟨[], false⟩], 0, 0⟩ : Pool Unit).queues, q.queue = []) ∧
      ((⟨1, [⟨[], false⟩], 1, 0⟩ : Pool Unit).taskCount = 0 + 1 ∧
        (⟨1, [⟨[], false⟩], 1, 0⟩ : Pool Unit).queues =
          (⟨1, [⟨[], false⟩], 0, 0⟩ : Pool Unit).queues ∧
        ∀ r, Relation.ReflTransGen (WorkerStep Unit) (⟨1, [⟨[], false⟩], 1, 0⟩ : Pool Unit) r →
          r.taskCount = 0 + 1 ∧ Pool.waitAllCanReturn r = false) :=
  ⟨by decide, by decide,
    failed_submit_blocks_wait_all (⟨1, [⟨[], false⟩], 0, 0⟩ : Pool Unit) none (some 0)
      (⟨1, [⟨[], false⟩], 1, 0⟩ : Pool Unit) .invalidArgument (by decide) (by decide)⟩

/-- C3: for a store built by appending the values `vs` to the empty store
(positive capacity), the size equals the number of appends, `at` raises
OutOfRange exactly when the index is at least the size, and every in-range
index — resolved through `index / capacity`, `index % capacity` and the walk
of the segment list, as in the definition of `atIdx` — yields the i-th
appended value unchanged. -/
theorem chunkList_at_returns_appended {α : Type} (cap : Nat) (hcap : 0 < cap)
    (vs : List α) (i : Nat) :
    (ChunkList.pushAll (ChunkList.empty α cap) vs).size = vs.length ∧
      (i < vs.length →
        (ChunkList.pushAll (ChunkList.empty α cap) vs).atIdx i = .ok vs[i]?) ∧
      (vs.length ≤ i →
        (ChunkList.pushAll (ChunkList.empty α cap) vs).atIdx i = .error .outOfRange) := by
  obtain ⟨hWF, he, hsz, -⟩ := pushAll_spec vs (ChunkList.empty α cap) (WF_empty cap hcap)
  have hsz' : (ChunkList.pushAll (ChunkList.empty α cap) vs).size = vs.length := by
    rw [hsz]
    simp [ChunkList.empty]
  have he' : (ChunkList.pushAll (ChunkList.empty α cap) vs).elems = vs := by
    rw [he]
    simp [ChunkList.elems, ChunkList.empty, listElems]
  refine ⟨hsz', fun hi => ?_, fun hi => ?_⟩
  · rw [atIdx_elems _ hWF i (by omega), he']
  · rw [ChunkList.atIdx, if_pos (by omega)]

/-- C3, witness: three appends with capacity 2; index 2 is in range and
returns the third appended value, index 3 is out of range. -/
theorem chunkList_at_returns_appended_witness :
    (0 < 2 ∧
      ((ChunkList.pushAll (ChunkList.empty Nat 2) [10, 20, 30]).size = 3 ∧
        (2 < 3 →
          (ChunkList.pushAll (ChunkList.empty Nat 2) [10, 20, 30]).atIdx 2 =
            .ok (some 30)) ∧
        (3 ≤ 2 →
          (ChunkList.pushAll (ChunkList.empty Nat 2) [10, 20, 30]).atIdx 2 =
            .error .outOfRange))) ∧
      (0 < 2 ∧
        ((ChunkList.pushAll (ChunkList.empty Nat 2) [10, 20, 30]).size = 3 ∧
          (3 < 3 →
            (ChunkList.pushAll (ChunkList.empty Nat 2) [10, 20, 30]).atIdx 3 =
              .ok [10, 20, 30][3]?) ∧
          (3 ≤ 3 →
            (ChunkList.pushAll (ChunkList.empty Nat 2) [10, 20, 30]).atIdx 3 =
              .error .outOfRange))) :=
  ⟨⟨by decide, chunkList_at_returns_appended 2 (by decide) [10, 20, 30] 2⟩,
    ⟨by decide, chunkList_at_returns_appended 2 (by decide) [10, 20, 30] 3⟩⟩

/-- C4: in every store reachable from the empty store (positive capacity) by
any sequence of append, removeLast, resize and clear operations, every
segment but the last is full, every segment holds between 1 and capacity
elements, and the segment list is empty exactly when the element count is
zero. -/
theorem chunkList_shape_invariant {α : Type} (cap : Nat) (hcap : 0 < cap)
    (ops : List (Op α)) : (ChunkList.run (ChunkList.empty α cap) ops).Shape :=
  WF_shape _ (run_WF ops _ (WF_empty cap hcap))

/-- C4, witness: a concrete sequence exercising append, removeLast, both
resize directions and clear. -/
theorem chunkList_shape_invariant_witness :
    0 < 2 ∧
      (ChunkList.run (ChunkList.empty Nat 2)
          [Op.push 5, Op.push 6, Op.push 7, Op.pop, Op.resize 5 9, Op.resize 1 4,
            Op.clear, Op.push 8]).Shape :=
  ⟨by decide,
    chunkList_shape_invariant 2 (by decide)
      [Op.push 5, Op.push 6, Op.push 7, Op.pop, Op.resize 5 9, Op.resize 1 4,
        Op.clear, Op.push 8]⟩

/-- C5: `removeLast` on an empty store fails with the Underflow signal and
leaves the store unchanged; along any interleaving of appends and successful
removeLasts started from the empty store (positive capacity), the final size
is the number of appends minus the number of removeLasts. -/
theorem chunkList_pop_size_accounting {α : Type} (cap : Nat) (hcap : 0 < cap)
    (ops : List (Op α)) (honly : pushPopOnly ops)
    (hpops : popsOk (ChunkList.empty α cap) ops = true) :
    (ChunkList.run (ChunkList.empty α cap) ops).size =
        ops.countP isPushOp - ops.countP isPopOp ∧
      ops.countP isPopOp ≤ ops.countP isPushOp ∧
      ∀ s : ChunkList α, s.size = 0 →
        s.pop_back = .error .underflow ∧ s.applyOp .pop = s := by
  obtain ⟨h, -⟩ := run_size_count ops (ChunkList.empty α cap) (WF_empty cap hcap) honly hpops
  rw [show (ChunkList.empty α cap).size = 0 from rfl] at h
  refine ⟨by omega, by omega, fun s hs => ?_⟩
  have h1 : s.pop_back = .error .underflow := by
    simp [ChunkList.pop_back, hs]
  exact ⟨h1, by simp [ChunkList.applyOp, h1]⟩

/-- C5, witness: three appends interleaved with two (successful) removeLasts
leave size 3 − 2 = 1; removeLast on the empty store underflows. -/
theorem chunkList_pop_size_accounting_witness :
    (0 < 2 ∧ pushPopOnly [Op.push 1, Op.push 2, Op.pop, Op.push 3, Op.pop] ∧
        popsOk (ChunkList.empty Nat 2)
          [Op.push 1, Op.push 2, Op.pop, Op.push 3, Op.pop] = true) ∧
      ((ChunkList.run (ChunkList.empty Nat 2)
            [Op.push 1, Op.push 2, Op.pop, Op.push 3, Op.pop]).size =
          List.countP isPushOp [Op.push 1, Op.push 2, Op.pop, Op.push 3, Op.pop] -
            List.countP isPopOp [Op.push 1, Op.push 2, Op.pop, Op.push 3, Op.pop] ∧
        List.countP isPopOp [Op.push 1, Op.push 2, Op.pop, Op.push 3, Op.pop] ≤
          List.countP isPushOp [Op.push 1, Op.push 2, Op.pop, Op.push 3, Op.pop] ∧
        ∀ s : ChunkList Nat, s.size = 0 →
          s.pop_back = .error .underflow ∧ s.applyOp .pop = s) :=
  ⟨⟨by decide, by decide, by decide⟩,
    chunkList_pop_size_accounting 2 (by decide)
      [Op.push 1, Op.push 2, Op.pop, Op.push 3, Op.pop] (by decide) (by decide)⟩

/-- C9: for every store satisfying the shape invariant, with positive chunk
capacity, the store-level append never lets the chunk-level overflow signal
escape to the caller: it always returns a new store (the overflow is caught,
a fresh chunk is linked, and the retry succeeds). -/
theorem push_back_never_overflows {α : Type} (s : ChunkList α) (v : α)
    (_hshape : s.Shape) (hcap : 0 < s.cap) : ∃ s', s.push_back v = .ok s' :=
  push_back_ok_of_cap s v hcap

/-- C9, witness: appending to a store whose (single) chunk is full exercises
the overflow-retry path and still succeeds. -/
theorem push_back_never_overflows_witness :
    ((ChunkList.pushAll (ChunkList.empty Nat 2) [5, 6]).Shape ∧
        0 < (ChunkList.pushAll (ChunkList.empty Nat 2) [5, 6]).cap) ∧
      ∃ s', (ChunkList.pushAll (ChunkList.empty Nat 2) [5, 6]).push_back 7 = .ok s' :=
  ⟨⟨by decide, by decide⟩, push_back_never_overflows _ 7 (by decide) (by decide)⟩

end UtilsSpec
